import Mathlib

/-!
# Verification of the mineplace3d-launcher core

A shallow embedding of the launcher's Version model (`src/version.rs`) and the
streaming download engine (`Launcher::download_version` and the relevant parts
of `Launcher::update` in `src/main.rs`), together with proofs of the spec's
testable properties.

Rust strings are embedded as `List Char`; `u32` values as `Nat` with explicit
`< 2 ^ 32` bounds where they matter; fallible operations return `Option` or
`Except String`.
-/

namespace Mineplace

/-! ## String primitives

Models of the `str` operations used by `Version::from_str`:
`trim`, `trim_start_matches('v')`, `split(sep)` and `u32::from_str`. -/

/-- Model of Rust `char::is_whitespace` (the Unicode `White_Space` property). -/
def isRustWhitespace (c : Char) : Bool :=
  c.toNat == 0x20 || (0x09 ≤ c.toNat && c.toNat ≤ 0x0D) || c.toNat == 0x85 ||
  c.toNat == 0xA0 || c.toNat == 0x1680 || (0x2000 ≤ c.toNat && c.toNat ≤ 0x200A) ||
  c.toNat == 0x2028 || c.toNat == 0x2029 || c.toNat == 0x202F || c.toNat == 0x205F ||
  c.toNat == 0x3000

/-- Leading-whitespace removal, first half of Rust `str::trim`. -/
def trimLeft (s : List Char) : List Char :=
  s.dropWhile isRustWhitespace

/-- Trailing-whitespace removal, second half of Rust `str::trim`. -/
def trimRight (s : List Char) : List Char :=
  (s.reverse.dropWhile isRustWhitespace).reverse

/-- Model of Rust `str::trim`. -/
def trim (s : List Char) : List Char :=
  trimRight (trimLeft s)

/-- Model of Rust `str::split(sep).collect::<Vec<_>>()`: splits at every
occurrence of `sep`; always returns at least one (possibly empty) segment. -/
def splitChar (sep : Char) : List Char → List (List Char)
  | [] => [[]]
  | c :: cs =>
    match splitChar sep cs with
    | [] => [[]]
    | h :: t => if c = sep then [] :: h :: t else (c :: h) :: t

/-- The ten ASCII digit characters. -/
def digitList : List Char := ['0', '1', '2', '3', '4', '5', '6', '7', '8', '9']

/-- Value of one ASCII digit character. -/
def charToDigit (c : Char) : Option Nat :=
  if '0' ≤ c ∧ c ≤ '9' then some (c.toNat - 48) else none

/-- Left-to-right accumulation of a decimal digit string, as
`u32::from_str` does; fails at the first non-digit character. -/
def parseDigitsAux (acc : Nat) : List Char → Option Nat
  | [] => some acc
  | c :: cs =>
    match charToDigit c with
    | some d => parseDigitsAux (acc * 10 + d) cs
    | none => none

/-- `u32::from_str` accepts one optional leading `+` sign. -/
def stripPlus : List Char → List Char
  | [] => []
  | c :: rest => if c = '+' then rest else c :: rest

/-- Model of Rust `str::parse::<u32>()`: optional `+`, then a nonempty
all-digit string whose value fits in 32 bits (overflow is an error). -/
def parseU32 (s : List Char) : Option Nat :=
  if (stripPlus s).isEmpty then none
  else
    match parseDigitsAux 0 (stripPlus s) with
    | some n => if n < 2 ^ 32 then some n else none
    | none => none

/-- Decimal rendering of a natural number, as `Display for u32` writes it
(most significant digit first, no sign, no leading zeros except for 0). -/
def natToChars (n : Nat) : List Char :=
  if _h : n < 10 then [Nat.digitChar n]
  else natToChars (n / 10) ++ [Nat.digitChar (n % 10)]
decreasing_by exact Nat.div_lt_self (by omega) (by omega)

/-! ## The Version model (`src/version.rs`) -/

/-- `enum VersionStage { Alpha, Beta, Release }`. -/
inductive VersionStage where
  | alpha
  | beta
  | release
deriving DecidableEq

/-- `struct Version { major, minor, patch: u32, stage: VersionStage, build: u32 }`.
The `u32` fields are embedded as `Nat`; theorems carry `< 2 ^ 32` bounds
where the machine width matters. -/
structure Version where
  major : Nat
  minor : Nat
  patch : Nat
  stage : VersionStage
  build : Nat
deriving DecidableEq

/-- `impl Ord for VersionStage` (`version.rs` lines 15-26), mirroring the
Rust `match` arm by arm. -/
def VersionStage.cmp : VersionStage → VersionStage → Ordering
  | .alpha, .alpha => .eq
  | .beta, .beta => .eq
  | .release, .release => .eq
  | .alpha, _ => .lt
  | .beta, .alpha => .gt
  | .beta, .release => .lt
  | .release, _ => .gt

/-- `impl Ord for Version` (`version.rs` lines 55-64):
`major.cmp(..).then(minor.cmp(..)).then(patch.cmp(..)).then(stage.cmp(..)).then(build.cmp(..))`. -/
def Version.cmp (a b : Version) : Ordering :=
  ((((compare a.major b.major).then (compare a.minor b.minor)).then
      (compare a.patch b.patch)).then
    (VersionStage.cmp a.stage b.stage)).then
  (compare a.build b.build)

/-- The characters of the stage token `"alpha"`. -/
def alphaChars : List Char := ['a', 'l', 'p', 'h', 'a']

/-- The characters of the stage token `"beta"`. -/
def betaChars : List Char := ['b', 'e', 't', 'a']

/-- The characters of the stage token `"release"`. -/
def releaseChars : List Char := ['r', 'e', 'l', 'e', 'a', 's', 'e']

/-- The `major.minor.patch` core rendered by `write!(f, "{}.{}.{}", ..)`. -/
def coreChars (M m p : Nat) : List Char :=
  natToChars M ++ '.' :: (natToChars m ++ '.' :: natToChars p)

/-- `impl Display for Version` (`version.rs` lines 122-138): core triple,
then `-alpha`/`-beta` (nothing for Release), then, when `build > 0`, the
literal `-release` re-inserted for Release-stage versions followed by
`.build`. -/
def render (v : Version) : List Char :=
  coreChars v.major v.minor v.patch ++
  (match v.stage with
   | .alpha => '-' :: alphaChars
   | .beta => '-' :: betaChars
   | .release => []) ++
  (if 0 < v.build then
    (match v.stage with
     | .release => '-' :: releaseChars
     | _ => []) ++
    '.' :: natToChars v.build
  else [])

/-- `s.trim().trim_start_matches('v')` (`version.rs` line 70). -/
def normalize (input : List Char) : List Char :=
  (trim input).dropWhile (fun c => c == 'v')

/-- The stage `match` on `stage_parts[0]` (`version.rs` lines 94-99):
exact, case-sensitive comparison against `alpha`, `beta`, `release`. -/
def stageOfTok (tok : List Char) : Except String VersionStage :=
  if tok = alphaChars then .ok .alpha
  else if tok = betaChars then .ok .beta
  else if tok = releaseChars then .ok .release
  else .error "Invalid version stage"

/-- The build computation (`version.rs` lines 100-106): `stage_parts[1]`
parsed as `u32` when present, else 0. -/
def buildOfParts (stageParts : List (List Char)) : Except String Nat :=
  if 1 < stageParts.length then
    match parseU32 (stageParts.getD 1 []) with
    | some b => .ok b
    | none => .error "Invalid build number"
  else .ok 0

/-- The stage-part processing (`version.rs` lines 92-107): split `parts[1]`
on `.`, read the stage from token 0 and the build from token 1. -/
def parseStagePart (stagePart : List Char) : Except String (VersionStage × Nat) :=
  match stageOfTok ((splitChar '.' stagePart).getD 0 []) with
  | .error e => .error e
  | .ok st =>
    match buildOfParts (splitChar '.' stagePart) with
    | .error e => .error e
    | .ok b => .ok (st, b)

/-- The core-triple processing (`version.rs` lines 76-90): `parts[0]` must
split on `.` into exactly three `u32` fields. -/
def parseCore (corePart : List Char) : Except String (Nat × Nat × Nat) :=
  if (splitChar '.' corePart).length ≠ 3 then
    .error "Version must be in the format major.minor.patch"
  else
    match parseU32 ((splitChar '.' corePart).getD 0 []) with
    | none => .error "Invalid major version"
    | some M =>
      match parseU32 ((splitChar '.' corePart).getD 1 []) with
      | none => .error "Invalid minor version"
      | some m =>
        match parseU32 ((splitChar '.' corePart).getD 2 []) with
        | none => .error "Invalid patch version"
        | some p => .ok (M, m, p)

/-- `impl FromStr for Version` (`version.rs` lines 66-120): trim and strip
leading `v`s, reject empty input, split on every `-` (only `parts[0]` and
`parts[1]` are consulted), parse the core triple, then the optional stage
part; no stage part defaults to Release with build 0. -/
def fromStr (input : List Char) : Except String Version :=
  if (normalize input).isEmpty then .error "Version string cannot be empty"
  else
    match parseCore ((splitChar '-' (normalize input)).getD 0 []) with
    | .error e => .error e
    | .ok (M, m, p) =>
      if 1 < (splitChar '-' (normalize input)).length then
        match parseStagePart ((splitChar '-' (normalize input)).getD 1 []) with
        | .error e => .error e
        | .ok (st, b) => .ok ⟨M, m, p, st, b⟩
      else .ok ⟨M, m, p, .release, 0⟩

/-! ## Lemmas about the string primitives -/

theorem natToChars_eq (n : Nat) :
    natToChars n =
      if n < 10 then [Nat.digitChar n]
      else natToChars (n / 10) ++ [Nat.digitChar (n % 10)] := by
  rw [natToChars]
  by_cases h : n < 10 <;> simp [h]

theorem digitChar_mem_digitList {k : Nat} (h : k < 10) :
    Nat.digitChar k ∈ digitList := by
  interval_cases k <;> decide

theorem natToChars_mem (n : Nat) : ∀ c ∈ natToChars n, c ∈ digitList := by
  induction n using Nat.strong_induction_on with
  | _ n ih =>
    intro c hc
    rw [natToChars_eq] at hc
    by_cases h : n < 10
    · simp only [if_pos h, List.mem_singleton] at hc
      exact hc ▸ digitChar_mem_digitList h
    · simp only [if_neg h, List.mem_append, List.mem_singleton] at hc
      rcases hc with hc | hc
      · exact ih (n / 10) (Nat.div_lt_self (by omega) (by omega)) c hc
      · exact hc ▸ digitChar_mem_digitList (Nat.mod_lt n (by omega))

theorem natToChars_ne_nil (n : Nat) : natToChars n ≠ [] := by
  rw [natToChars_eq]
  by_cases h : n < 10
  · simp [h]
  · simp only [if_neg h]
    intro hcontra
    exact absurd (List.append_eq_nil.mp hcontra).2 (by simp)

theorem exists_head_natToChars (n : Nat) :
    ∃ c t, natToChars n = c :: t ∧ c ∈ digitList := by
  rcases hn : natToChars n with _ | ⟨c, t⟩
  · exact absurd hn (natToChars_ne_nil n)
  · exact ⟨c, t, rfl, natToChars_mem n c (hn ▸ List.mem_cons_self c t)⟩

theorem digit_not_ws {c : Char} (h : c ∈ digitList) : isRustWhitespace c = false := by
  fin_cases h <;> decide

theorem digit_ne_dash {c : Char} (h : c ∈ digitList) : c ≠ '-' := by
  fin_cases h <;> decide

theorem digit_ne_dot {c : Char} (h : c ∈ digitList) : c ≠ '.' := by
  fin_cases h <;> decide

theorem digit_ne_v {c : Char} (h : c ∈ digitList) : (c == 'v') = false := by
  fin_cases h <;> decide

theorem digit_ne_plus {c : Char} (h : c ∈ digitList) : c ≠ '+' := by
  fin_cases h <;> decide

theorem charToDigit_of_mem {c : Char} (h : c ∈ digitList) :
    charToDigit c = some (c.toNat - 48) := by
  fin_cases h <;> decide

theorem charToDigit_digitChar {k : Nat} (h : k < 10) :
    charToDigit (Nat.digitChar k) = some k := by
  interval_cases k <;> decide

theorem parseDigitsAux_append (xs ys : List Char) :
    ∀ acc : Nat, parseDigitsAux acc (xs ++ ys) =
      match parseDigitsAux acc xs with
      | some m => parseDigitsAux m ys
      | none => none := by
  induction xs with
  | nil => intro acc; rfl
  | cons c cs ih =>
    intro acc
    simp only [List.cons_append, parseDigitsAux]
    rcases h : charToDigit c with _ | d
    · rfl
    · exact ih (acc * 10 + d)

theorem parseDigitsAux_natToChars (n : Nat) :
    ∀ acc : Nat, parseDigitsAux acc (natToChars n) =
      some (acc * 10 ^ (natToChars n).length + n) := by
  induction n using Nat.strong_induction_on with
  | _ n ih =>
    intro acc
    rw [natToChars_eq]
    by_cases h : n < 10
    · simp only [if_pos h, parseDigitsAux, charToDigit_digitChar h, List.length_singleton,
        pow_one]
    · have hd : n / 10 < n := Nat.div_lt_self (by omega) (by omega)
      simp only [if_neg h, parseDigitsAux_append, ih (n / 10) hd acc, parseDigitsAux,
        charToDigit_digitChar (Nat.mod_lt n (by omega)), List.length_append,
        List.length_singleton]
      congr 1
      have hmod : n / 10 * 10 + n % 10 = n := Nat.div_add_mod n 10 ▸ by omega
      rw [pow_succ]
      ring_nf
      omega

theorem parseU32_natToChars {n : Nat} (h : n < 2 ^ 32) :
    parseU32 (natToChars n) = some n := by
  obtain ⟨c, t, hct, hcd⟩ := exists_head_natToChars n
  have hplus : stripPlus (natToChars n) = natToChars n := by
    rw [hct, stripPlus, if_neg (digit_ne_plus hcd)]
  have hie : (natToChars n).isEmpty = false := by rw [hct]; rfl
  rw [parseU32, hplus]
  simp [hie, parseDigitsAux_natToChars n 0]
  omega

theorem splitChar_ne_nil (sep : Char) (s : List Char) : splitChar sep s ≠ [] := by
  cases s with
  | nil => simp [splitChar]
  | cons c cs =>
    rw [splitChar]
    rcases h : splitChar sep cs with _ | ⟨a, b⟩
    · simp
    · by_cases hc : c = sep <;> simp [hc]

theorem splitChar_append_left {sep : Char} {xs : List Char} (h : sep ∉ xs)
    (ys : List Char) :
    splitChar sep (xs ++ ys) =
      (xs ++ (splitChar sep ys).getD 0 []) :: (splitChar sep ys).tail := by
  induction xs with
  | nil =>
    rcases hy : splitChar sep ys with _ | ⟨a, b⟩
    · exact absurd hy (splitChar_ne_nil sep ys)
    · simp [hy]
  | cons c cs ih =>
    have hc : c ≠ sep := fun hcc => h (hcc ▸ List.mem_cons_self c cs)
    have hcs : sep ∉ cs := fun hmem => h (List.mem_cons_of_mem c hmem)
    rw [List.cons_append, splitChar, ih hcs]
    simp [hc]

theorem splitChar_of_not_mem {sep : Char} {xs : List Char} (h : sep ∉ xs) :
    splitChar sep xs = [xs] := by
  have := splitChar_append_left h []
  simpa [splitChar] using this

theorem splitChar_cons_sep (sep : Char) (ys : List Char) :
    splitChar sep (sep :: ys) = [] :: splitChar sep ys := by
  rw [splitChar]
  rcases hy : splitChar sep ys with _ | ⟨a, b⟩
  · exact absurd hy (splitChar_ne_nil sep ys)
  · simp

theorem splitChar_append_sep {sep : Char} {xs : List Char} (h : sep ∉ xs)
    (ys : List Char) :
    splitChar sep (xs ++ sep :: ys) = xs :: splitChar sep ys := by
  rw [splitChar_append_left h (sep :: ys), splitChar_cons_sep]
  simp

theorem dropWhile_eq_self_of_all {p : Char → Bool} {s : List Char}
    (h : ∀ c ∈ s, p c = false) : s.dropWhile p = s := by
  cases s with
  | nil => rfl
  | cons a l => simp [List.dropWhile_cons, h a (List.mem_cons_self a l)]

theorem dropWhile_cons_false {p : Char → Bool} {a : Char} (l : List Char)
    (h : p a = false) : (a :: l).dropWhile p = a :: l := by
  simp [List.dropWhile_cons, h]

theorem dropWhile_append_stop {p : Char → Bool} {y : Char} (h : p y = false)
    (xs ys : List Char) :
    (xs ++ y :: ys).dropWhile p = xs.dropWhile p ++ y :: ys := by
  induction xs with
  | nil => simp [List.dropWhile_cons, h]
  | cons x l ih =>
    simp only [List.cons_append, List.dropWhile_cons]
    by_cases hx : p x
    · simp [hx, ih]
    · simp [hx]

theorem trimRight_append {c : Char} (h : isRustWhitespace c = false)
    (xs ys : List Char) :
    trimRight (xs ++ c :: ys) = xs ++ c :: trimRight ys := by
  unfold trimRight
  rw [show (xs ++ c :: ys).reverse = ys.reverse ++ c :: xs.reverse by simp,
    dropWhile_append_stop h]
  simp

theorem trimRight_eq_self {s : List Char}
    (h : ∀ c ∈ s, isRustWhitespace c = false) : trimRight s = s := by
  unfold trimRight
  rw [dropWhile_eq_self_of_all (fun c hc => h c (List.mem_reverse.mp hc)),
    List.reverse_reverse]

theorem trim_eq_self {s : List Char}
    (h : ∀ c ∈ s, isRustWhitespace c = false) : trim s = s := by
  unfold trim trimLeft
  rw [dropWhile_eq_self_of_all h, trimRight_eq_self h]

theorem trim_append_tail {a c : Char} (ha : isRustWhitespace a = false)
    (hc : isRustWhitespace c = false) (xs ys : List Char) :
    trim ((a :: xs) ++ c :: ys) = (a :: xs) ++ c :: trimRight ys := by
  unfold trim trimLeft
  rw [List.cons_append, dropWhile_cons_false _ ha, ← List.cons_append,
    trimRight_append hc]

/-! ## Evaluation lemmas for `fromStr` on structured inputs -/

/-- `tok` is the exact token string that `Version::from_str` maps to stage `st`. -/
def StageTok (tok : List Char) (st : VersionStage) : Prop :=
  (tok = alphaChars ∧ st = .alpha) ∨ (tok = betaChars ∧ st = .beta) ∨
  (tok = releaseChars ∧ st = .release)

theorem not_mem_append' {a : Char} {xs ys : List Char} (hx : a ∉ xs)
    (hy : a ∉ ys) : a ∉ xs ++ ys :=
  fun h => (List.mem_append.mp h).elim hx hy

theorem not_mem_cons' {a b : Char} {l : List Char} (hab : a ≠ b) (hl : a ∉ l) :
    a ∉ b :: l :=
  fun h => (List.mem_cons.mp h).elim hab hl

theorem append_no_ws {xs ys : List Char}
    (hx : ∀ c ∈ xs, isRustWhitespace c = false)
    (hy : ∀ c ∈ ys, isRustWhitespace c = false) :
    ∀ c ∈ xs ++ ys, isRustWhitespace c = false :=
  fun c hc => (List.mem_append.mp hc).elim (hx c) (hy c)

theorem cons_no_ws {a : Char} {l : List Char} (ha : isRustWhitespace a = false)
    (hl : ∀ c ∈ l, isRustWhitespace c = false) :
    ∀ c ∈ a :: l, isRustWhitespace c = false :=
  fun c hc => (List.mem_cons.mp hc).elim (fun hca => hca ▸ ha) (hl c)

theorem natToChars_no_ws (n : Nat) :
    ∀ c ∈ natToChars n, isRustWhitespace c = false :=
  fun c hc => digit_not_ws (natToChars_mem n c hc)

theorem dash_not_mem_natToChars (n : Nat) : '-' ∉ natToChars n :=
  fun hm => digit_ne_dash (natToChars_mem n _ hm) rfl

theorem dot_not_mem_natToChars (n : Nat) : '.' ∉ natToChars n :=
  fun hm => digit_ne_dot (natToChars_mem n _ hm) rfl

theorem coreChars_no_ws (M m p : Nat) :
    ∀ c ∈ coreChars M m p, isRustWhitespace c = false :=
  append_no_ws (natToChars_no_ws M)
    (cons_no_ws (by decide)
      (append_no_ws (natToChars_no_ws m)
        (cons_no_ws (by decide) (natToChars_no_ws p))))

theorem dash_not_mem_coreChars (M m p : Nat) : '-' ∉ coreChars M m p :=
  not_mem_append' (dash_not_mem_natToChars M)
    (not_mem_cons' (by decide)
      (not_mem_append' (dash_not_mem_natToChars m)
        (not_mem_cons' (by decide) (dash_not_mem_natToChars p))))

theorem stageOfTok_eval {tok : List Char} {st : VersionStage}
    (h : StageTok tok st) : stageOfTok tok = .ok st := by
  rcases h with ⟨rfl, rfl⟩ | ⟨rfl, rfl⟩ | ⟨rfl, rfl⟩ <;> rfl

theorem stageTok_not_dot {tok : List Char} {st : VersionStage}
    (h : StageTok tok st) : '.' ∉ tok := by
  rcases h with ⟨rfl, -⟩ | ⟨rfl, -⟩ | ⟨rfl, -⟩ <;> decide

theorem stageTok_not_dash {tok : List Char} {st : VersionStage}
    (h : StageTok tok st) : '-' ∉ tok := by
  rcases h with ⟨rfl, -⟩ | ⟨rfl, -⟩ | ⟨rfl, -⟩ <;> decide

theorem stageTok_no_ws {tok : List Char} {st : VersionStage}
    (h : StageTok tok st) : ∀ c ∈ tok, isRustWhitespace c = false := by
  rcases h with ⟨rfl, -⟩ | ⟨rfl, -⟩ | ⟨rfl, -⟩ <;> decide

theorem exists_head_coreChars (M m p : Nat) :
    ∃ c t, coreChars M m p = c :: t ∧ c ∈ digitList := by
  obtain ⟨c, t, hct, hcd⟩ := exists_head_natToChars M
  exact ⟨c, t ++ '.' :: (natToChars m ++ '.' :: natToChars p),
    by simp [coreChars, hct], hcd⟩

theorem dropWhile_v_cons {c : Char} (l : List Char) (h : (c == 'v') = false) :
    (c :: l).dropWhile (fun x => x == 'v') = c :: l := by
  simp [List.dropWhile_cons, h]

theorem normalize_eq_self {s : List Char}
    (hws : ∀ c ∈ s, isRustWhitespace c = false)
    {c : Char} {t : List Char} (hs : s = c :: t) (hcd : c ∈ digitList) :
    normalize s = s := by
  unfold normalize
  rw [trim_eq_self hws, hs, dropWhile_v_cons t (digit_ne_v hcd)]

theorem splitChar_coreChars (M m p : Nat) :
    splitChar '.' (coreChars M m p) = [natToChars M, natToChars m, natToChars p] := by
  unfold coreChars
  rw [splitChar_append_sep (dot_not_mem_natToChars M),
    splitChar_append_sep (dot_not_mem_natToChars m),
    splitChar_of_not_mem (dot_not_mem_natToChars p)]

theorem parseCore_eval {M m p : Nat} (hM : M < 2 ^ 32) (hm : m < 2 ^ 32)
    (hp : p < 2 ^ 32) : parseCore (coreChars M m p) = .ok (M, m, p) := by
  rw [parseCore]
  simp [splitChar_coreChars, parseU32_natToChars hM, parseU32_natToChars hm,
    parseU32_natToChars hp]

theorem parseStagePart_nobuild {tok : List Char} {st : VersionStage}
    (h : StageTok tok st) : parseStagePart tok = .ok (st, 0) := by
  rw [parseStagePart, splitChar_of_not_mem (stageTok_not_dot h)]
  simp [stageOfTok_eval h, buildOfParts]

theorem parseStagePart_build {tok : List Char} {st : VersionStage}
    (h : StageTok tok st) {b : Nat} (hb : b < 2 ^ 32) (junk : List Char)
    (hjunk : junk = [] ∨ ∃ E, junk = '.' :: E) :
    parseStagePart (tok ++ '.' :: (natToChars b ++ junk)) = .ok (st, b) := by
  rcases hjunk with rfl | ⟨E, rfl⟩
  · rw [List.append_nil, parseStagePart, splitChar_append_sep (stageTok_not_dot h),
      splitChar_of_not_mem (dot_not_mem_natToChars b)]
    simp [stageOfTok_eval h, buildOfParts, parseU32_natToChars hb]
  · rw [parseStagePart, splitChar_append_sep (stageTok_not_dot h),
      splitChar_append_sep (dot_not_mem_natToChars b)]
    simp [stageOfTok_eval h, buildOfParts, parseU32_natToChars hb]

/-- Parsing a bare `major.minor.patch` core: stage defaults to Release, build 0. -/
theorem fromStr_core_only {M m p : Nat} (hM : M < 2 ^ 32) (hm : m < 2 ^ 32)
    (hp : p < 2 ^ 32) :
    fromStr (coreChars M m p) = .ok ⟨M, m, p, .release, 0⟩ := by
  obtain ⟨c, t, hct, hcd⟩ := exists_head_coreChars M m p
  have hnorm : normalize (coreChars M m p) = coreChars M m p :=
    normalize_eq_self (coreChars_no_ws M m p) hct hcd
  have hsplit : splitChar '-' (coreChars M m p) = [coreChars M m p] :=
    splitChar_of_not_mem (dash_not_mem_coreChars M m p)
  have hne : (coreChars M m p).isEmpty = false := by rw [hct]; rfl
  rw [fromStr, hnorm, hsplit]
  simp [hne, parseCore_eval hM hm hp]

/-- Parsing `major.minor.patch-<tok>` with no build number. -/
theorem fromStr_stage_only {M m p : Nat} (hM : M < 2 ^ 32) (hm : m < 2 ^ 32)
    (hp : p < 2 ^ 32) {tok : List Char} {st : VersionStage}
    (h : StageTok tok st) :
    fromStr (coreChars M m p ++ '-' :: tok) = .ok ⟨M, m, p, st, 0⟩ := by
  obtain ⟨c, t, hct, hcd⟩ := exists_head_coreChars M m p
  have hcons : coreChars M m p ++ '-' :: tok = c :: (t ++ '-' :: tok) := by
    rw [hct]; rfl
  have hnorm : normalize (coreChars M m p ++ '-' :: tok) =
      coreChars M m p ++ '-' :: tok :=
    normalize_eq_self
      (append_no_ws (coreChars_no_ws M m p) (cons_no_ws (by decide) (stageTok_no_ws h)))
      hcons hcd
  have hsplit : splitChar '-' (coreChars M m p ++ '-' :: tok) =
      [coreChars M m p, tok] := by
    rw [splitChar_append_sep (dash_not_mem_coreChars M m p),
      splitChar_of_not_mem (stageTok_not_dash h)]
  have hne : (coreChars M m p ++ '-' :: tok).isEmpty = false := by rw [hcons]; rfl
  rw [fromStr, hnorm, hsplit]
  simp [hne, parseCore_eval hM hm hp, parseStagePart_nobuild h]

/-- Parsing `major.minor.patch-<tok>.<build><junk>` where `junk` is either
empty or starts with a dot (further dot-separated tokens, arbitrary content):
the junk is ignored. -/
theorem fromStr_stage_build {M m p b : Nat} (hM : M < 2 ^ 32) (hm : m < 2 ^ 32)
    (hp : p < 2 ^ 32) (hb : b < 2 ^ 32) {tok : List Char} {st : VersionStage}
    (h : StageTok tok st) (junk : List Char)
    (hjunk : junk = [] ∨ ∃ E, junk = '.' :: E) :
    fromStr (coreChars M m p ++ '-' :: (tok ++ '.' :: (natToChars b ++ junk))) =
      .ok ⟨M, m, p, st, b⟩ := by
  obtain ⟨c, t, hct, hcd⟩ := exists_head_coreChars M m p
  -- normalization leaves a string of the same shape, with junk J still
  -- empty or dot-led
  obtain ⟨J, hJshape, hnorm⟩ :
      ∃ J, (J = [] ∨ ∃ E, J = '.' :: E) ∧
        normalize (coreChars M m p ++ '-' :: (tok ++ '.' :: (natToChars b ++ junk))) =
          coreChars M m p ++ '-' :: (tok ++ '.' :: (natToChars b ++ J)) := by
    rcases hjunk with rfl | ⟨E, rfl⟩
    · refine ⟨[], Or.inl rfl, ?_⟩
      refine normalize_eq_self ?_ (by rw [hct]; rfl) hcd
      exact append_no_ws (coreChars_no_ws M m p)
        (cons_no_ws (by decide)
          (append_no_ws (stageTok_no_ws h)
            (cons_no_ws (by decide)
              (append_no_ws (natToChars_no_ws b) (by intro c hc; cases hc)))))
    · refine ⟨'.' :: trimRight E, Or.inr ⟨trimRight E, rfl⟩, ?_⟩
      have hassoc :
          coreChars M m p ++ '-' :: (tok ++ '.' :: (natToChars b ++ '.' :: E)) =
            (c :: (t ++ '-' :: (tok ++ '.' :: natToChars b))) ++ '.' :: E := by
        rw [hct]; simp
      have hassoc2 :
          (c :: (t ++ '-' :: (tok ++ '.' :: natToChars b))) ++ '.' :: trimRight E =
            coreChars M m p ++ '-' :: (tok ++ '.' :: (natToChars b ++ '.' :: trimRight E)) := by
        rw [hct]; simp
      have hhd : (c == 'v') = false := digit_ne_v hcd
      unfold normalize
      rw [hassoc, trim_append_tail (digit_not_ws hcd) (by decide), hassoc2]
      obtain ⟨c2, t2, hct2, hcd2⟩ := exists_head_coreChars M m p
      rw [hct2] at hct ⊢
      cases hct
      rw [List.cons_append, dropWhile_v_cons _ hhd, ← List.cons_append]
  rw [fromStr, hnorm]
  have hxs : ('-' : Char) ∉ tok ++ '.' :: natToChars b :=
    not_mem_append' (stageTok_not_dash h)
      (not_mem_cons' (by decide) (dash_not_mem_natToChars b))
  have hrest : tok ++ '.' :: (natToChars b ++ J) = (tok ++ '.' :: natToChars b) ++ J := by
    simp
  obtain ⟨H, hHshape, hsplitrest⟩ :
      ∃ H, (H = [] ∨ ∃ E2, H = '.' :: E2) ∧
        splitChar '-' (tok ++ '.' :: (natToChars b ++ J)) =
          ((tok ++ '.' :: natToChars b) ++ H) ::
            (splitChar '-' J).tail := by
    refine ⟨(splitChar '-' J).getD 0 [], ?_, by rw [hrest, splitChar_append_left hxs]⟩
    rcases hJshape with rfl | ⟨E2, rfl⟩
    · exact Or.inl rfl
    · rw [show ('.' :: E2 : List Char) = ['.'] ++ E2 by rfl,
        splitChar_append_left (by decide)]
      exact Or.inr ⟨(splitChar '-' E2).getD 0 [], rfl⟩
  have hsplit : splitChar '-' (coreChars M m p ++ '-' :: (tok ++ '.' :: (natToChars b ++ J))) =
      coreChars M m p :: ((tok ++ '.' :: natToChars b) ++ H) :: (splitChar '-' J).tail := by
    rw [splitChar_append_sep (dash_not_mem_coreChars M m p), hsplitrest]
  have hne : (coreChars M m p ++ '-' :: (tok ++ '.' :: (natToChars b ++ J))).isEmpty = false := by
    rw [hct]; rfl
  have hstage : parseStagePart (tok ++ '.' :: (natToChars b ++ H)) = .ok (st, b) :=
    parseStagePart_build h hb H hHshape
  rw [hsplit]
  simp [hne, parseCore_eval hM hm hp, hstage]

/-! ## The spec's lexicographic order, written from its words -/

/-- Spec stage order `Alpha < Beta < Release`, as ranks. -/
def stageRank : VersionStage → Nat
  | .alpha => 0
  | .beta => 1
  | .release => 2

/-- The spec's order, written from its words: lexicographic on
`(major, minor, patch, stage, build)` with stage ordered Alpha < Beta < Release. -/
def lexLt (a b : Version) : Prop :=
  a.major < b.major ∨ (a.major = b.major ∧
    (a.minor < b.minor ∨ (a.minor = b.minor ∧
      (a.patch < b.patch ∨ (a.patch = b.patch ∧
        (stageRank a.stage < stageRank b.stage ∨
          (stageRank a.stage = stageRank b.stage ∧ a.build < b.build)))))))

theorem then_eq_lt_iff (o₁ o₂ : Ordering) :
    o₁.then o₂ = .lt ↔ o₁ = .lt ∨ (o₁ = .eq ∧ o₂ = .lt) := by
  cases o₁ <;> simp [Ordering.then]

theorem then_eq_eq_iff (o₁ o₂ : Ordering) :
    o₁.then o₂ = .eq ↔ o₁ = .eq ∧ o₂ = .eq := by
  cases o₁ <;> simp [Ordering.then]

theorem stage_cmp_lt_iff (s t : VersionStage) :
    VersionStage.cmp s t = .lt ↔ stageRank s < stageRank t := by
  cases s <;> cases t <;> decide

theorem stage_cmp_eq_iff (s t : VersionStage) :
    VersionStage.cmp s t = .eq ↔ stageRank s = stageRank t := by
  cases s <;> cases t <;> decide

/-! ## Claim theorems for the Version model -/

/-- C1: for every Version `v` (all five fields arbitrary, the four numeric
fields being `u32` values), parsing the canonical rendered string gives back
exactly `v`: `parse(render(v)) = Ok(v)`, including the Release-with-nonzero-
build case where the literal `-release` tag is re-inserted. -/
theorem c1_parse_render_roundtrip (v : Version) (hM : v.major < 2 ^ 32)
    (hm : v.minor < 2 ^ 32) (hp : v.patch < 2 ^ 32) (hb : v.build < 2 ^ 32) :
    fromStr (render v) = .ok v := by
  obtain ⟨M, m, p, st, b⟩ := v
  simp only at hM hm hp hb
  by_cases h0 : 0 < b
  · cases st
    · have h := fromStr_stage_build hM hm hp hb
        (Or.inl ⟨rfl, rfl⟩ : StageTok alphaChars .alpha) [] (Or.inl rfl)
      simpa [render, h0] using h
    · have h := fromStr_stage_build hM hm hp hb
        (Or.inr (Or.inl ⟨rfl, rfl⟩) : StageTok betaChars .beta) [] (Or.inl rfl)
      simpa [render, h0] using h
    · have h := fromStr_stage_build hM hm hp hb
        (Or.inr (Or.inr ⟨rfl, rfl⟩) : StageTok releaseChars .release) [] (Or.inl rfl)
      simpa [render, h0] using h
  · have hb0 : b = 0 := by omega
    subst hb0
    cases st
    · have h := fromStr_stage_only hM hm hp
        (Or.inl ⟨rfl, rfl⟩ : StageTok alphaChars .alpha)
      simpa [render] using h
    · have h := fromStr_stage_only hM hm hp
        (Or.inr (Or.inl ⟨rfl, rfl⟩) : StageTok betaChars .beta)
      simpa [render] using h
    · have h := fromStr_core_only hM hm hp
      simpa [render] using h

/-- C1 witness: the theorem applied at the concrete version 1.2.3-release.7,
whose canonical string re-inserts the `-release` tag. -/
theorem c1_parse_render_roundtrip_witness :
    ((1 : Nat) < 2 ^ 32 ∧ (2 : Nat) < 2 ^ 32 ∧ (3 : Nat) < 2 ^ 32 ∧
      (7 : Nat) < 2 ^ 32) ∧
    fromStr (render ⟨1, 2, 3, .release, 7⟩) = .ok ⟨1, 2, 3, .release, 7⟩ :=
  ⟨⟨by decide, by decide, by decide, by decide⟩,
    c1_parse_render_roundtrip ⟨1, 2, 3, .release, 7⟩ (by decide) (by decide)
      (by decide) (by decide)⟩

/-- C2: `Version::cmp` is the lexicographic order on
`(major, minor, patch, stage, build)` with Alpha < Beta < Release; the
spec's concrete examples hold: alpha < beta < release at the same core
triple, `parse("1.0.0") < parse("1.0.0-beta")` is false, and builds
tie-break. -/
theorem c2_cmp_lexicographic :
    (∀ a b : Version, Version.cmp a b = .lt ↔ lexLt a b) ∧
    fromStr ("1.0.0-alpha".toList) = .ok ⟨1, 0, 0, .alpha, 0⟩ ∧
    fromStr ("1.0.0-beta".toList) = .ok ⟨1, 0, 0, .beta, 0⟩ ∧
    fromStr ("1.0.0".toList) = .ok ⟨1, 0, 0, .release, 0⟩ ∧
    fromStr ("1.0.0-beta.1".toList) = .ok ⟨1, 0, 0, .beta, 1⟩ ∧
    fromStr ("1.0.0-beta.2".toList) = .ok ⟨1, 0, 0, .beta, 2⟩ ∧
    Version.cmp ⟨1, 0, 0, .alpha, 0⟩ ⟨1, 0, 0, .beta, 0⟩ = .lt ∧
    Version.cmp ⟨1, 0, 0, .beta, 0⟩ ⟨1, 0, 0, .release, 0⟩ = .lt ∧
    ¬ Version.cmp ⟨1, 0, 0, .release, 0⟩ ⟨1, 0, 0, .beta, 0⟩ = .lt ∧
    Version.cmp ⟨1, 0, 0, .beta, 1⟩ ⟨1, 0, 0, .beta, 2⟩ = .lt := by
  refine ⟨?_, by rfl, by rfl, by rfl, by rfl, by rfl, by decide, by decide,
    by decide, by decide⟩
  intro a b
  obtain ⟨M₁, m₁, p₁, s₁, b₁⟩ := a
  obtain ⟨M₂, m₂, p₂, s₂, b₂⟩ := b
  simp only [Version.cmp, lexLt, then_eq_lt_iff, then_eq_eq_iff,
    Nat.compare_eq_lt, Nat.compare_eq_eq, stage_cmp_lt_iff, stage_cmp_eq_iff]
  tauto

/-- C6 counterexample: the claim says any input with a second `-` inside the
stage part fails to parse; but `"1.0.0-beta-extra"` parses successfully
(to 1.0.0-beta, build 0), because `from_str` splits on every `-` and reads
only `parts[0]` and `parts[1]`. -/
theorem c6_counterexample :
    fromStr ("1.0.0-beta-extra".toList) = .ok ⟨1, 0, 0, .beta, 0⟩ := by rfl

/-- C6 amended: parsing splits on every `-` (not only the first); the
segment before the first `-` is the core and the segment between the first
and second `-` is the stage part, whose first dot-token must be exactly
`alpha`, `beta` or `release`; everything after a second `-` is ignored, so
`"1.0.0-beta-<anything>"` parses successfully to 1.0.0-beta for every
trailing character sequence. -/
theorem c6_amended (rest : List Char) :
    fromStr ("1.0.0-beta-".toList ++ rest) = .ok ⟨1, 0, 0, .beta, 0⟩ := by
  have hshape : ("1.0.0-beta-".toList ++ rest : List Char) =
      ('1' :: "\x2e0.0-beta".toList) ++ '-' :: rest := by simp
  have hnorm : normalize ("1.0.0-beta-".toList ++ rest) =
      "1.0.0-beta-".toList ++ trimRight rest := by
    unfold normalize
    rw [hshape, trim_append_tail (by decide) (by decide)]
    rfl
  have hsplit : splitChar '-' ("1.0.0-beta-".toList ++ trimRight rest) =
      "1.0.0".toList :: "beta".toList :: splitChar '-' (trimRight rest) := by
    rw [show ("1.0.0-beta-".toList ++ trimRight rest : List Char) =
      "1.0.0".toList ++ '-' :: ("beta".toList ++ '-' :: trimRight rest) by simp,
      splitChar_append_sep (by decide), splitChar_append_sep (by decide)]
  rw [fromStr, hnorm, hsplit]
  have hcore : parseCore ['1', '.', '0', '.', '0'] = .ok (1, 0, 0) := by rfl
  have hstage : parseStagePart ['b', 'e', 't', 'a'] = .ok (.beta, 0) := by rfl
  simp [hcore, hstage]

/-- C7: the four spec-mandated reject cases fail with exactly the
field-identifying errors the code produces. -/
theorem c7_reject_cases :
    fromStr ("".toList) = .error "Version string cannot be empty" ∧
    fromStr ("1.0".toList) = .error "Version must be in the format major.minor.patch" ∧
    fromStr ("1.0.0-gamma".toList) = .error "Invalid version stage" ∧
    fromStr ("1.0.0-beta.x".toList) = .error "Invalid build number" :=
  ⟨by rfl, by rfl, by rfl, by rfl⟩

/-- C10: for every valid core triple, every valid stage token and every
valid build value, appending further dot-separated tokens (arbitrary
trailing characters after one more `.`) is silently ignored: the input
parses successfully and yields the same Version as the input without the
extra tokens. -/
theorem c10_extra_stage_tokens_ignored (M m p b : Nat) (hM : M < 2 ^ 32)
    (hm : m < 2 ^ 32) (hp : p < 2 ^ 32) (hb : b < 2 ^ 32) (tok : List Char)
    (st : VersionStage) (htok : StageTok tok st) (extra : List Char) :
    fromStr (coreChars M m p ++ '-' :: (tok ++ '.' :: (natToChars b ++ '.' :: extra))) =
      .ok ⟨M, m, p, st, b⟩ ∧
    fromStr (coreChars M m p ++ '-' :: (tok ++ '.' :: natToChars b)) =
      .ok ⟨M, m, p, st, b⟩ := by
  constructor
  · exact fromStr_stage_build hM hm hp hb htok ('.' :: extra) (Or.inr ⟨extra, rfl⟩)
  · have h := fromStr_stage_build hM hm hp hb htok [] (Or.inl rfl)
    simpa using h

/-- C10 witness: the theorem applied at `"1.0.0-beta.1.garbage"` (and its
junk-free counterpart `"1.0.0-beta.1"`). -/
theorem c10_extra_stage_tokens_ignored_witness :
    ((1 : Nat) < 2 ^ 32 ∧ (0 : Nat) < 2 ^ 32 ∧ (1 : Nat) < 2 ^ 32 ∧
      StageTok betaChars .beta) ∧
    (fromStr (coreChars 1 0 0 ++ '-' :: (betaChars ++ '.' ::
        (natToChars 1 ++ '.' :: "garbage".toList))) = .ok ⟨1, 0, 0, .beta, 1⟩ ∧
      fromStr (coreChars 1 0 0 ++ '-' :: (betaChars ++ '.' :: natToChars 1)) =
        .ok ⟨1, 0, 0, .beta, 1⟩) :=
  ⟨⟨by decide, by decide, by decide, Or.inr (Or.inl ⟨rfl, rfl⟩)⟩,
    c10_extra_stage_tokens_ignored 1 0 0 1 (by decide) (by decide) (by decide)
      (by decide) betaChars .beta (Or.inr (Or.inl ⟨rfl, rfl⟩)) ("garbage".toList)⟩

/-! ## The streaming Download Engine (`src/main.rs`, `Launcher::download_version`)

The engine is embedded as a pure trace semantics: network nondeterminism
(HTTP statuses, the chunk sequence of a response body, the wall-clock
readings of `Instant::elapsed`) enters as parameters, and each run yields
the list of events the producer pushes into the progress channel, the list
of filesystem operations it performs, and its `Result`.

`f32` progress and speed values are modelled as exact rationals; the
progress fraction is `downloaded / total` exactly as in the source. -/

/-- The `cfg(target_os = ..)` platform branching. -/
inductive Platform where
  | windows
  | linux
  | macos
  | other
deriving DecidableEq

/-- One chunk yielded by `bytes_stream()`: its byte length and the
wall-clock milliseconds `last_tick.elapsed()` reads after it is processed. -/
structure ChunkArrival where
  len : Nat
  elapsedMs : Nat
deriving DecidableEq

/-- Events sent through the progress `Sender` (the `DownloadUpdate` enum).
`rawFloatOne` models line 461, `progress_tx.try_send(1.0)`, which sends a
bare float instead of a `Message` (a type error in the source; kept as a
distinct non-Finished event). -/
inductive DlEvent where
  | progress (fraction : ℚ) (speed : ℚ)
  | finished
  | rawFloatOne

/-- The file paths `download_version` touches, relative to
`<game_dir>/versions`: the game binary `exec_path`, `SDL2.dll`, and the
temporary archive `sdl2_temp.zip`. -/
inductive FsPath where
  | execFile
  | sdl2Dll
  | tempZip
deriving DecidableEq

/-- Filesystem operations performed by the engine. -/
inductive FsOp where
  | append (p : FsPath) (len : Nat)
  | openRead (p : FsPath)
  | create (p : FsPath)
  | write (p : FsPath)
  | remove (p : FsPath)
deriving DecidableEq

/-- The chunk loop of `download_version` (lines 339-369, and its copy at
lines 409-438): for each chunk, append its bytes to `target`
(`OpenOptions::new().create(true).append(true)`), bump the byte counters,
and when `elapsed >= 250ms`, emit a `Progress` event if the total content
length is known and reset the rolling counters. A chunk error aborts with
`Download error: ..`; file writes are modelled as succeeding (a write
failure aborts the same way as a chunk error). -/
def streamLoop (target : FsPath) (total : Option Nat) :
    List (Except String ChunkArrival) → Nat → Nat →
      List DlEvent × List FsOp × Except String Unit
  | [], _, _ => ([], [], .ok ())
  | .error e :: _, _, _ => ([], [], .error ("Download error: " ++ e))
  | .ok ch :: rest, downloaded, sinceLast =>
    let downloaded2 := downloaded + ch.len
    let sinceLast2 := sinceLast + ch.len
    let tickEvs : List DlEvent :=
      if 250 ≤ ch.elapsedMs then
        match total with
        | some t =>
          [.progress ((downloaded2 : ℚ) / (t : ℚ))
            ((sinceLast2 : ℚ) / ((ch.elapsedMs : ℚ) / 1000))]
        | none => []
      else []
    let next :=
      if 250 ≤ ch.elapsedMs then streamLoop target total rest downloaded2 0
      else streamLoop target total rest downloaded2 sinceLast2
    (tickEvs ++ next.1, .append target ch.len :: next.2.1, next.2.2)

/-- The main asset streaming phase (lines 332-371): run the chunk loop
writing to `exec_path`, then, on stream exhaustion, send exactly one
`Finished` event; a chunk error aborts before the `Finished` send. -/
def downloadStream (total : Option Nat)
    (chunks : List (Except String ChunkArrival)) :
    List DlEvent × List FsOp × Except String Unit :=
  match streamLoop .execFile total chunks 0 0 with
  | (evs, ops, .ok ()) => (evs ++ [.finished], ops, .ok ())
  | (evs, ops, .error e) => (evs, ops, .error e)

/-- The Windows dependency-install block (lines 374-462), run when
`SDL2.dll` is absent. After the vendor GET succeeds it sends
`Progress(0.0, 0.0)` and then re-runs the chunk loop — reading from
`download_response` (the game-binary response already consumed by the main
loop, a use of a moved value in the source; the chunks it would yield enter
here as `respChunks`) and appending the bytes to `exec_path`, not to
`temp_zip_path` — then sends a second `Finished`, and only then opens
`temp_zip_path` (which nothing ever wrote; the open can succeed only if a
stale `sdl2_temp.zip` already existed, `tempZipPresent`). On zip success it
creates and writes `SDL2.dll`, removes the temp zip and performs the
ill-typed `try_send(1.0)`. Error strings elide the appended io-error
cause. -/
def windowsSdl2Install (sdl2Present sdl2RespOk : Bool) (mainTotal : Option Nat)
    (respChunks : List (Except String ChunkArrival))
    (tempZipPresent zipHasSdl2 : Bool) :
    List DlEvent × List FsOp × Except String Unit :=
  if sdl2Present then ([], [], .ok ())
  else if !sdl2RespOk then ([], [], .error "Failed to download SDL2.dll")
  else
    match streamLoop .execFile mainTotal respChunks 0 0 with
    | (evs, ops, .error e) => (.progress 0 0 :: evs, ops, .error e)
    | (evs, ops, .ok ()) =>
      if !tempZipPresent then
        (.progress 0 0 :: evs ++ [.finished], ops ++ [.openRead .tempZip],
          .error "Failed to open SDL2.dll zip file")
      else if !zipHasSdl2 then
        (.progress 0 0 :: evs ++ [.finished], ops ++ [.openRead .tempZip],
          .error "Failed to find SDL2.dll in zip archive")
      else
        (.progress 0 0 :: evs ++ [.finished, .rawFloatOne],
          ops ++ [.openRead .tempZip, .create .sdl2Dll, .write .sdl2Dll,
            .remove .tempZip],
          .ok ())

/-- The producer side of one download request from the start of the
Streaming phase: the main stream (with its single terminal `Finished`),
then, on Windows only, the dependency-install block. The `cfg(unix)`
permission step performs no channel sends and is elided. -/
def producerRun (plat : Platform) (total : Option Nat)
    (mainChunks : List (Except String ChunkArrival))
    (sdl2Present sdl2RespOk : Bool)
    (respChunks : List (Except String ChunkArrival))
    (tempZipPresent zipHasSdl2 : Bool) :
    List DlEvent × List FsOp × Except String Unit :=
  match downloadStream total mainChunks with
  | (evs, ops, .error e) => (evs, ops, .error e)
  | (evs, ops, .ok ()) =>
    match plat with
    | .windows =>
      match windowsSdl2Install sdl2Present sdl2RespOk total respChunks
          tempZipPresent zipHasSdl2 with
      | (evs2, ops2, res2) => (evs ++ evs2, ops ++ ops2, res2)
    | _ => (evs, ops, .ok ())

/-- The fraction carried by each `Progress` event of a trace. -/
def progressFractions (evs : List DlEvent) : List ℚ :=
  evs.filterMap fun e =>
    match e with
    | .progress f _ => some f
    | _ => none

/-- Whether an event is the terminal `Finished` event. -/
def isFinished : DlEvent → Bool
  | .finished => true
  | _ => false

/-- Number of `Finished` events in a trace. -/
def countFinished (evs : List DlEvent) : Nat :=
  evs.countP isFinished

/-- Whether a filesystem operation writes (creates, appends to, or
overwrites) the given path. -/
def writesPath (p : FsPath) : FsOp → Bool
  | .append q _ => q == p
  | .create q => q == p
  | .write q => q == p
  | _ => false

/-! ## Metadata fetch (`download_version` lines 246-261) and the caller
boundary (`Launcher::update`, `ButtonMessage::DownloadVersion`) -/

/-- Observable effects of the metadata phase: HTTP requests and
filesystem operations. -/
inductive Effect where
  | httpGet (url : List Char)
  | fs (op : FsOp)

/-- The release-metadata URL
`https://api.github.com/repos/Muhtasim-Rasheed/mineplace3d/releases/tags/v{version}`. -/
def releaseUrl (v : Version) : List Char :=
  ("https://api.github.com/repos/Muhtasim-Rasheed/mineplace3d/releases/tags/v").toList
    ++ render v

/-- `hay` contains `needle` as a contiguous subsequence. -/
def containsSeq (needle hay : List Char) : Prop :=
  ∃ s t, hay = s ++ needle ++ t

/-- The metadata phase of `download_version` (lines 246-261): issue the GET
for the release tag of the rendered version (with the fixed `User-Agent`
header), and if the response status is not a success, fail with
`Release for version v{version} not found`. Yields the effect trace and
`none` on success or `some message` on failure. The phase performs no
filesystem operation. -/
def fetchReleaseMeta (v : Version) (metaSuccess : Bool) :
    List Effect × Option (List Char) :=
  ([Effect.httpGet (releaseUrl v)],
    if metaSuccess then none
    else some (("Release for version v").toList ++ render v ++ (" not found").toList))

/-- The `ButtonMessage::DownloadVersion` branch of `Launcher::update`
(lines 545-576): parse the input field; on success, if the parsed version
is already in the installed set, return `Task::none()` without touching the
engine; otherwise re-parse, require the progress sender to be wired up
(`expect("Download update sender not set")`), and dispatch
`Self::download_version` for the version. Returns `ok none` when no
download task is dispatched, `ok (some v)` when the engine is invoked for
`v`, and `error` for the `expect` panic. -/
def handleDownloadRequest (versions : List Version) (input : List Char)
    (senderSet : Bool) : Except String (Option Version) :=
  match fromStr input with
  | .ok version =>
    if version ∈ versions then .ok none
    else
      match fromStr input with
      | .ok version2 =>
        if senderSet then .ok (some version2)
        else .error "Download update sender not set"
      | .error _ => .ok none
  | .error _ => .ok none

/-! ## Lemmas about the stream loop -/

theorem progressFractions_append (a b : List DlEvent) :
    progressFractions (a ++ b) = progressFractions a ++ progressFractions b := by
  simp [progressFractions]

theorem streamLoop_no_finished (target : FsPath) (total : Option Nat)
    (chunks : List (Except String ChunkArrival)) :
    ∀ d sl, DlEvent.finished ∉ (streamLoop target total chunks d sl).1 := by
  induction chunks with
  | nil => intro d sl; simp [streamLoop]
  | cons c rest ih =>
    intro d sl
    cases c with
    | error e => simp [streamLoop]
    | ok ch =>
      by_cases ht : 250 ≤ ch.elapsedMs
      · cases total with
        | none => simpa [streamLoop, ht] using ih (d + ch.len) 0
        | some t => simpa [streamLoop, ht] using ih (d + ch.len) 0
      · simpa [streamLoop, ht] using ih (d + ch.len) (sl + ch.len)

theorem streamLoop_ok (target : FsPath) (total : Option Nat)
    (arr : List ChunkArrival) :
    ∀ d sl, (streamLoop target total (arr.map Except.ok) d sl).2.2 = .ok () := by
  induction arr with
  | nil => intro d sl; simp [streamLoop]
  | cons ch rest ih =>
    intro d sl
    by_cases ht : 250 ≤ ch.elapsedMs <;> simp [streamLoop, ht, ih]

theorem streamLoop_ops (target : FsPath) (total : Option Nat)
    (chunks : List (Except String ChunkArrival)) :
    ∀ d sl op, op ∈ (streamLoop target total chunks d sl).2.1 →
      ∃ n, op = FsOp.append target n := by
  induction chunks with
  | nil => intro d sl op hop; simp [streamLoop] at hop
  | cons c rest ih =>
    intro d sl op hop
    cases c with
    | error e => simp [streamLoop] at hop
    | ok ch =>
      by_cases ht : 250 ≤ ch.elapsedMs <;>
        simp only [streamLoop, ht, if_true, if_false, List.mem_cons] at hop <;>
        [rcases hop with rfl | hop; rcases hop with rfl | hop] <;>
        first
          | exact ⟨ch.len, rfl⟩
          | exact ih _ _ op hop

theorem streamLoop_none_silent (target : FsPath)
    (chunks : List (Except String ChunkArrival)) :
    ∀ d sl, progressFractions (streamLoop target none chunks d sl).1 = [] := by
  induction chunks with
  | nil => intro d sl; simp [streamLoop, progressFractions]
  | cons c rest ih =>
    intro d sl
    cases c with
    | error e => simp [streamLoop, progressFractions]
    | ok ch =>
      by_cases ht : 250 ≤ ch.elapsedMs <;> simp [streamLoop, ht, ih]

theorem streamLoop_fracs (target : FsPath) {N : Nat} (hN : 0 < N)
    (arr : List ChunkArrival) :
    ∀ d sl, d + (arr.map ChunkArrival.len).sum ≤ N →
      List.Chain' (· ≤ ·)
        (progressFractions (streamLoop target (some N) (arr.map Except.ok) d sl).1) ∧
      ∀ f ∈ progressFractions (streamLoop target (some N) (arr.map Except.ok) d sl).1,
        (d : ℚ) / (N : ℚ) ≤ f ∧ f ≤ 1 := by
  have hNQ : (0 : ℚ) < (N : ℚ) := by exact_mod_cast hN
  induction arr with
  | nil =>
    intro d sl _
    constructor
    · simp [streamLoop, progressFractions]
    · simp [streamLoop, progressFractions]
  | cons ch rest ih =>
    intro d sl h
    have hlen : d + ch.len + (rest.map ChunkArrival.len).sum ≤ N := by
      simp only [List.map_cons, List.sum_cons] at h; omega
    have hmono : (d : ℚ) / (N : ℚ) ≤ ((d : ℚ) + (ch.len : ℚ)) / (N : ℚ) := by
      rw [div_le_div_iff_of_pos_right hNQ]
      have : (0 : ℚ) ≤ (ch.len : ℚ) := by positivity
      linarith
    by_cases ht : 250 ≤ ch.elapsedMs
    · obtain ⟨ihc, ihb⟩ := ih (d + ch.len) 0 hlen
      have hcast : ((d + ch.len : Nat) : ℚ) = (d : ℚ) + (ch.len : ℚ) := by push_cast; ring
      have hfev : progressFractions
            (streamLoop target (some N) ((ch :: rest).map Except.ok) d sl).1 =
          ((d : ℚ) + (ch.len : ℚ)) / (N : ℚ) ::
            progressFractions
              (streamLoop target (some N) (rest.map Except.ok) (d + ch.len) 0).1 := by
        simp [streamLoop, ht, progressFractions]
      have hboundf : ((d : ℚ) + (ch.len : ℚ)) / (N : ℚ) ≤ 1 := by
        rw [div_le_one hNQ]
        have : ((d + ch.len : Nat) : ℚ) ≤ (N : ℚ) := by exact_mod_cast (by omega : d + ch.len ≤ N)
        rw [hcast] at this
        exact this
      refine ⟨?_, ?_⟩
      · rw [hfev]
        refine List.chain'_cons'.mpr ⟨?_, ihc⟩
        intro q hq
        have hqmem := List.mem_of_mem_head? hq
        have := (ihb q hqmem).1
        rw [hcast] at this
        exact this
      · intro f hf
        rw [hfev] at hf
        rcases List.mem_cons.mp hf with rfl | hf
        · exact ⟨hmono, hboundf⟩
        · have h1 := (ihb f hf).1
          rw [hcast] at h1
          exact ⟨le_trans hmono h1, (ihb f hf).2⟩
    · obtain ⟨ihc, ihb⟩ := ih (d + ch.len) (sl + ch.len) hlen
      have hcast : ((d + ch.len : Nat) : ℚ) = (d : ℚ) + (ch.len : ℚ) := by push_cast; ring
      have hfev : progressFractions
            (streamLoop target (some N) ((ch :: rest).map Except.ok) d sl).1 =
          progressFractions
            (streamLoop target (some N) (rest.map Except.ok) (d + ch.len) (sl + ch.len)).1 := by
        simp [streamLoop, ht, progressFractions]
      rw [hfev]
      refine ⟨ihc, fun f hf => ?_⟩
      have h1 := (ihb f hf).1
      rw [hcast] at h1
      exact ⟨le_trans hmono h1, (ihb f hf).2⟩

/-! ## Claim theorems for the Download Engine -/

/-- Whether an `Effect` is a filesystem operation. -/
def isFsEffect : Effect → Bool
  | .fs _ => true
  | _ => false

/-- C5: for a stream of known total length `N` whose chunk lengths sum to
at most `N`, the emitted `Progress` fractions (each computed as
cumulative-downloaded / N) are non-decreasing and never exceed 1, and the
stream completes normally; with unknown content length no `Progress` event
is emitted and the download still completes normally. -/
theorem c5_progress_monotone (N : Nat) (hN : 0 < N) (chunks : List ChunkArrival)
    (hsum : (chunks.map ChunkArrival.len).sum ≤ N) (chunks2 : List ChunkArrival) :
    (List.Chain' (· ≤ ·)
        (progressFractions (downloadStream (some N) (chunks.map Except.ok)).1) ∧
      (∀ f ∈ progressFractions (downloadStream (some N) (chunks.map Except.ok)).1,
        f ≤ 1) ∧
      (downloadStream (some N) (chunks.map Except.ok)).2.2 = .ok ()) ∧
    (progressFractions (downloadStream none (chunks2.map Except.ok)).1 = [] ∧
      (downloadStream none (chunks2.map Except.ok)).2.2 = .ok ()) := by
  constructor
  · rcases hS : streamLoop .execFile (some N) (chunks.map Except.ok) 0 0
      with ⟨evs, ops, res⟩
    have hok := streamLoop_ok .execFile (some N) chunks 0 0
    rw [hS] at hok
    simp only at hok
    subst hok
    have hds : downloadStream (some N) (chunks.map Except.ok) =
        (evs ++ [.finished], ops, .ok ()) := by
      rw [downloadStream, hS]
    obtain ⟨hchain, hbound⟩ :=
      streamLoop_fracs .execFile hN chunks 0 0 (by simpa using hsum)
    rw [hS] at hchain hbound
    simp only at hchain hbound
    rw [hds]
    simp only [progressFractions_append]
    have hfin : progressFractions [DlEvent.finished] = [] := rfl
    rw [hfin, List.append_nil]
    exact ⟨hchain, fun f hf => (hbound f hf).2, by trivial⟩
  · rcases hS : streamLoop .execFile none (chunks2.map Except.ok) 0 0
      with ⟨evs, ops, res⟩
    have hok := streamLoop_ok .execFile none chunks2 0 0
    rw [hS] at hok
    simp only at hok
    subst hok
    have hsil := streamLoop_none_silent .execFile (chunks2.map Except.ok) 0 0
    rw [hS] at hsil
    simp only at hsil
    have hds : downloadStream none (chunks2.map Except.ok) =
        (evs ++ [.finished], ops, .ok ()) := by
      rw [downloadStream, hS]
    rw [hds]
    simp only [progressFractions_append, hsil]
    exact ⟨rfl, by trivial⟩

/-- C5 witness: the theorem applied to a two-chunk stream of total length 2
(both emission ticks firing) and a one-chunk unknown-length stream. -/
theorem c5_progress_monotone_witness :
    ((0 : Nat) < 2 ∧
      (([⟨1, 250⟩, ⟨1, 300⟩] : List ChunkArrival).map ChunkArrival.len).sum ≤ 2) ∧
    ((List.Chain' (· ≤ ·)
        (progressFractions
          (downloadStream (some 2)
            (([⟨1, 250⟩, ⟨1, 300⟩] : List ChunkArrival).map Except.ok)).1) ∧
      (∀ f ∈ progressFractions
          (downloadStream (some 2)
            (([⟨1, 250⟩, ⟨1, 300⟩] : List ChunkArrival).map Except.ok)).1,
        f ≤ 1) ∧
      (downloadStream (some 2)
        (([⟨1, 250⟩, ⟨1, 300⟩] : List ChunkArrival).map Except.ok)).2.2 = .ok ()) ∧
    (progressFractions
        (downloadStream none (([⟨3, 50⟩] : List ChunkArrival).map Except.ok)).1 = [] ∧
      (downloadStream none
        (([⟨3, 50⟩] : List ChunkArrival).map Except.ok)).2.2 = .ok ())) :=
  ⟨⟨by decide, by decide⟩,
    c5_progress_monotone 2 (by decide) [⟨1, 250⟩, ⟨1, 300⟩] (by decide) [⟨3, 50⟩]⟩

/-- C4 (code bug): on the Windows path with `SDL2.dll` absent, the producer
emits `Finished` twice per download (line 371 after the main stream and
line 441 after the dependency stream), so the claimed at-most-one-Finished
property fails there; on the non-Windows path it does hold (at most one
`Finished` per run). -/
theorem c4_finished_twice_on_windows :
    countFinished (producerRun .windows (some 1) [Except.ok ⟨1, 0⟩] false true
      [Except.ok ⟨1, 0⟩] false false).1 = 2 ∧
    ∀ (total : Option Nat) (chunks : List (Except String ChunkArrival))
      (sp so : Bool) (rc : List (Except String ChunkArrival)) (tz zh : Bool),
      countFinished (producerRun .linux total chunks sp so rc tz zh).1 ≤ 1 := by
  constructor
  · rfl
  · intro total chunks sp so rc tz zh
    rcases hS : streamLoop .execFile total chunks 0 0 with ⟨evs, ops, res⟩
    have hnf := streamLoop_no_finished .execFile total chunks 0 0
    rw [hS] at hnf
    simp only at hnf
    have hcount : countFinished evs = 0 := by
      rw [countFinished, List.countP_eq_zero]
      intro e he
      cases e with
      | progress f s => simp [isFinished]
      | finished => exact absurd he hnf
      | rawFloatOne => simp [isFinished]
    cases res with
    | error e =>
      have : producerRun .linux total chunks sp so rc tz zh =
          (evs, ops, .error e) := by
        rw [producerRun, downloadStream, hS]
      rw [this, hcount]
      omega
    | ok u =>
      cases u
      have : producerRun .linux total chunks sp so rc tz zh =
          (evs ++ [.finished], ops, .ok ()) := by
        rw [producerRun, downloadStream, hS]
      rw [this]
      rw [countFinished, List.countP_append, ← countFinished]
      rw [hcount]
      rfl

/-- C3 (code bug): with `SDL2.dll` absent on Windows, the modelled
dependency installer appends the streamed bytes to the game binary path
`exec_path` (from the already-consumed `download_response`), never writes
the temporary archive path `sdl2_temp.zip`, and then fails opening that
never-written archive; in general no run of the block ever creates,
appends to, or overwrites `sdl2_temp.zip`. -/
theorem c3_dependency_writes_exec_path :
    (windowsSdl2Install false true (some 5) [Except.ok ⟨5, 100⟩] false false =
      ([.progress 0 0, .finished], [.append .execFile 5, .openRead .tempZip],
        .error "Failed to open SDL2.dll zip file")) ∧
    ∀ (sp so : Bool) (total : Option Nat)
      (rc : List (Except String ChunkArrival)) (tz zh : Bool),
      ((windowsSdl2Install sp so total rc tz zh).2.1.all
        (fun op => !(writesPath .tempZip op))) = true := by
  constructor
  · rfl
  · intro sp so total rc tz zh
    cases sp with
    | true => rfl
    | false =>
      cases so with
      | false => rfl
      | true =>
        rcases hS : streamLoop .execFile total rc 0 0 with ⟨evs, ops, res⟩
        have hops := streamLoop_ops .execFile total rc 0 0
        rw [hS] at hops
        simp only at hops
        have hopsb : ops.all (fun op => !(writesPath .tempZip op)) = true := by
          rw [List.all_eq_true]
          intro op hop
          obtain ⟨n, rfl⟩ := hops op hop
          rfl
        cases res with
        | error e =>
          have : windowsSdl2Install false true total rc tz zh =
              (.progress 0 0 :: evs, ops, .error e) := by
            rw [windowsSdl2Install]
            simp only [Bool.not_true, if_false, Bool.false_eq_true, hS]
          rw [this]
          exact hopsb
        | ok u =>
          cases u
          cases tz with
          | false =>
            have : windowsSdl2Install false true total rc false zh =
                (.progress 0 0 :: evs ++ [.finished], ops ++ [.openRead .tempZip],
                  .error "Failed to open SDL2.dll zip file") := by
              rw [windowsSdl2Install]
              simp only [Bool.not_true, if_false, Bool.false_eq_true, hS,
                Bool.not_false, if_true]
            rw [this]
            simp only [List.all_append, hopsb, Bool.true_and]
            rfl
          | true =>
            cases zh with
            | false =>
              have : windowsSdl2Install false true total rc true false =
                  (.progress 0 0 :: evs ++ [.finished],
                    ops ++ [.openRead .tempZip],
                    .error "Failed to find SDL2.dll in zip archive") := by
                rw [windowsSdl2Install]
                simp only [Bool.not_true, if_false, Bool.false_eq_true, hS,
                  Bool.not_false, if_true]
              rw [this]
              simp only [List.all_append, hopsb, Bool.true_and]
              rfl
            | true =>
              have : windowsSdl2Install false true total rc true true =
                  (.progress 0 0 :: evs ++ [.finished, .rawFloatOne],
                    ops ++ [.openRead .tempZip, .create .sdl2Dll,
                      .write .sdl2Dll, .remove .tempZip],
                    .ok ()) := by
                rw [windowsSdl2Install]
                simp only [Bool.not_true, if_false, Bool.false_eq_true, hS,
                  Bool.not_false, if_true]
              rw [this]
              simp only [List.all_append, hopsb, Bool.true_and]
              rfl

/-- C8: a `DownloadVersion` request whose input parses to a version already
in the installed set is a no-op at the caller boundary: `update` returns
`Task::none()` before reaching the sender or dispatching
`download_version`, for every launcher state. -/
theorem c8_installed_version_noop (versions : List Version) (input : List Char)
    (senderSet : Bool) (v : Version) (hparse : fromStr input = .ok v)
    (hmem : v ∈ versions) :
    handleDownloadRequest versions input senderSet = .ok none := by
  rw [handleDownloadRequest, hparse]
  simp [hmem]

/-- C8 witness: the theorem applied with version 1.0.0 already installed,
in both sender states. -/
theorem c8_installed_version_noop_witness :
    (fromStr ("1.0.0".toList) = .ok ⟨1, 0, 0, .release, 0⟩ ∧
      (⟨1, 0, 0, .release, 0⟩ : Version) ∈
        [(⟨1, 0, 0, .release, 0⟩ : Version), ⟨0, 2, 2, .release, 0⟩]) ∧
    handleDownloadRequest [⟨1, 0, 0, .release, 0⟩, ⟨0, 2, 2, .release, 0⟩]
      ("1.0.0".toList) false = .ok none :=
  ⟨⟨by rfl, by decide⟩,
    c8_installed_version_noop [⟨1, 0, 0, .release, 0⟩, ⟨0, 2, 2, .release, 0⟩]
      ("1.0.0".toList) false ⟨1, 0, 0, .release, 0⟩ (by rfl) (by decide)⟩

/-- C9: when the release-metadata endpoint answers with a non-success
status, the download fails with a message containing `not found` and the
rendered version string, and the metadata phase performs no filesystem
operation at all (its only effect is the HTTP GET). -/
theorem c9_metadata_failure_no_fs (v : Version) :
    ∃ msg, (fetchReleaseMeta v false).2 = some msg ∧
      containsSeq (("not found").toList) msg ∧
      containsSeq (render v) msg ∧
      (fetchReleaseMeta v false).1.all (fun e => !(isFsEffect e)) = true := by
  refine ⟨("Release for version v").toList ++ render v ++ (" not found").toList,
    rfl, ?_, ?_, rfl⟩
  · refine ⟨("Release for version v").toList ++ render v ++ [' '],
      [], ?_⟩
    rw [show ((" not found").toList : List Char) = ' ' :: ("not found").toList
      from rfl]
    simp
  · exact ⟨("Release for version v").toList, (" not found").toList, by simp⟩

end Mineplace
